import Mathlib

/-!
Verification of `notion_html_to_anki_csv.py`: a script converting a Notion
HTML table export into an Anki-importable CSV.  The Python functions are
shallowly embedded as Lean definitions over an explicit HTML node tree; the
string and regex operations of the source are modelled character-exactly on
`List Char`.
-/

namespace NotionAnki

/-- Python whitespace, as tested by `str.strip()` and the regex class `\s`
(ASCII range: space, tab, newline, carriage return, vertical tab, form feed). -/
def pyIsSpace (c : Char) : Bool :=
  c = ' ' || c = '\t' || c = '\n' || c = '\r' || c = Char.ofNat 11 || c = Char.ofNat 12

/-- Python `str.strip()` on a character list. -/
def pyStripL (l : List Char) : List Char :=
  ((l.dropWhile pyIsSpace).reverse.dropWhile pyIsSpace).reverse

/-- Python `str.strip()`. -/
def pyStrip (s : String) : String := ⟨pyStripL s.data⟩

/-- Python `str.rstrip(";")` on a character list. -/
def rstripSemiL (l : List Char) : List Char :=
  (l.reverse.dropWhile (fun c => c = ';')).reverse

/-- Python `str.strip(",;")` on a character list. -/
def stripCommaSemiL (l : List Char) : List Char :=
  let p := fun c => c = ',' || c = ';'
  ((l.dropWhile p).reverse.dropWhile p).reverse

/-- Locate the first occurrence of `pat` in `s`; return the text before it
and the text after it.  `none` when `pat` does not occur. -/
def splitOnFirst (pat : List Char) : List Char → Option (List Char × List Char)
  | [] => if pat.isPrefixOf ([] : List Char) then some ([], []) else none
  | c :: rest =>
    if pat.isPrefixOf (c :: rest) then some ([], List.drop pat.length (c :: rest))
    else
      match splitOnFirst pat rest with
      | none => none
      | some (b, a) => some (c :: b, a)

/-- `pat` occurs in `s` as a contiguous substring (Python `pat in s`). -/
def occursL (pat s : List Char) : Bool := (splitOnFirst pat s).isSome

/-- Python `pat in s` on strings. -/
def containsSub (pat s : String) : Bool := occursL pat.data s.data

/-- Python `s.replace(pat, rep)`: replace all non-overlapping occurrences,
scanning left to right.  Fuel-based so the definition stays structural. -/
def replaceAllAux (pat rep : List Char) : Nat → List Char → List Char
  | 0, s => s
  | fuel + 1, s =>
    match splitOnFirst pat s with
    | none => s
    | some (b, a) => b ++ rep ++ replaceAllAux pat rep fuel a

/-- Python `s.replace(pat, rep)` (for non-empty `pat`). -/
def replaceAllStr (pat rep s : String) : String :=
  ⟨replaceAllAux pat.data rep.data s.data.length s.data⟩

/-- Python `re.split` with a one-character-class-run pattern such as
`[,;\n]+`: maximal runs of delimiter characters separate the pieces, and
edge delimiters produce empty pieces, exactly as in Python. -/
def splitRuns (p : Char → Bool) : List Char → List (List Char)
  | [] => [[]]
  | c :: rest =>
    if p c then
      match rest with
      | [] => [[], []]
      | d :: rest2 =>
        if p d then splitRuns p (d :: rest2) else [] :: splitRuns p (d :: rest2)
    else
      match splitRuns p rest with
      | [] => [[c]]
      | t :: ts => (c :: t) :: ts

/-- Python `re.sub(r"\s+", "-", s)`: every maximal whitespace run becomes a
single dash. -/
def collapseWs : List Char → List Char
  | [] => []
  | c :: rest =>
    if pyIsSpace c then
      match rest with
      | [] => ['-']
      | d :: rest2 =>
        if pyIsSpace d then collapseWs (d :: rest2) else '-' :: collapseWs (d :: rest2)
    else c :: collapseWs rest

/-- Python `sep.join(parts)`. -/
def joinWith (sep : List Char) : List (List Char) → List Char
  | [] => []
  | [d] => d
  | d :: rest => d ++ sep ++ joinWith sep rest

/-- The backtick character. -/
def tickChar : Char := Char.ofNat 96

/-- Python `s.split(";")`: split at every semicolon, keeping empty pieces. -/
def splitOnSemi : List Char → List (List Char)
  | [] => [[]]
  | c :: rest =>
    if c = ';' then [] :: splitOnSemi rest
    else
      match splitOnSemi rest with
      | [] => [[c]]
      | t :: ts => (c :: t) :: ts

/-! ## HTML element model

`bs4` attributes touched by the script: `class` (multi-valued, a token list),
`style`, `href`; any other attribute is only ever dropped wholesale, so the
remaining attributes are kept as an association list. -/

structure Attrs where
  classAttr : Option (List String) := none
  style : Option String := none
  href : Option String := none
  other : List (String × String) := []
deriving Repr, DecidableEq

mutual
inductive Node where
  | text (s : String)
  | elem (tag : String) (attrs : Attrs) (children : NodeList)
deriving Repr, DecidableEq
inductive NodeList where
  | nil
  | cons (n : Node) (ns : NodeList)
deriving Repr, DecidableEq
end

def NodeList.append : NodeList → NodeList → NodeList
  | .nil, ys => ys
  | .cons x xs, ys => .cons x (xs.append ys)

instance : Append NodeList := ⟨NodeList.append⟩

/-- `CSS_COLOR_MAP` from the source: Notion color key → CSS color. -/
def CSS_COLOR_MAP (k : String) : Option String :=
  if k = "default" then some "black"
  else if k = "gray" then some "gray"
  else if k = "brown" then some "saddlebrown"
  else if k = "orange" then some "orange"
  else if k = "yellow" then some "gold"
  else if k = "teal" then some "teal"
  else if k = "blue" then some "blue"
  else if k = "purple" then some "purple"
  else if k = "pink" then some "deeppink"
  else if k = "red" then some "red"
  else none

/-- `ALLOWED_TAGS` from the source. -/
def ALLOWED_TAGS : List String :=
  ["strong", "b", "em", "i", "u", "code", "pre", "span", "br", "ul", "ol", "li", "a", "div"]

/-- A character allowed by the regex class `[a-z_]`. -/
def lowerKeyChar (c : Char) : Bool :=
  (97 ≤ c.toNat && c.toNat ≤ 122) || c = '_'

/-- `re.match(r"(?:highlight|block-color)-([a-z_]+)$", cls)`, returning the
captured key.  `re.match` anchors at the start; `$` matches at the end of the
string or just before one final newline, which the model reproduces. -/
def colorKeyOf (l : List Char) : Option String :=
  let base := match l.getLast? with
    | some c => if c = '\n' then l.dropLast else l
    | none => l
  let hp := "highlight-".data
  let bp := "block-color-".data
  if hp.isPrefixOf base then
    let key := base.drop hp.length
    if key ≠ [] ∧ key.all lowerKeyChar then some ⟨key⟩ else none
  else if bp.isPrefixOf base then
    let key := base.drop bp.length
    if key ≠ [] ∧ key.all lowerKeyChar then some ⟨key⟩ else none
  else none

/-- The regex match of `convert_color_classes_to_inline` on one class token. -/
def matchColorClass (cls : String) : Option String := colorKeyOf cls.data

/-- `merge_style` (source lines 24-26): append `new_rules` to the element's
existing inline style, separated by `;`; the existing style is first
whitespace-stripped and stripped of trailing semicolons. -/
def merge_style (st : Option String) (new_rules : String) : String :=
  let existing : String := ⟨rstripSemiL (pyStripL (st.getD "").data)⟩
  if existing ≠ "" then existing ++ ";" ++ new_rules else existing ++ new_rules

/-- The style update performed for one class token of
`convert_color_classes_to_inline` (source lines 34-44): a token matching the
color-class regex whose key does not end in `_background` and is a known
color-map key appends `color:<css-color>` to the style. -/
def colorStyleStep (st : Option String) (cls : String) : Option String :=
  match matchColorClass cls with
  | none => st
  | some key =>
    if ("_background".data).isSuffixOf key.data then st
    else
      match CSS_COLOR_MAP key with
      | some col => some (merge_style st ("color:" ++ col))
      | none => st

/-- `convert_color_classes_to_inline` (source lines 28-51), acting on the
element's attributes.  The Python loop iterates over a snapshot of the class
list, merging a color into `style` for each matching token and removing every
matching token; the attribute is deleted when no token remains.  An absent or
empty class list is returned untouched (`if not classes: return`). -/
def convert_color_classes_to_inline (a : Attrs) : Attrs :=
  match a.classAttr with
  | none => a
  | some [] => a
  | some cs =>
    let st := cs.foldl colorStyleStep a.style
    let kept := cs.filter (fun cls => (matchColorClass cls).isNone)
    { a with classAttr := if kept.isEmpty then none else some kept, style := st }

/-! ## Tree traversals -/

mutual
/-- The `NavigableString` fragments of a node, in document order. -/
def textFrags : Node → List String
  | .text s => [s]
  | .elem _ _ cs => textFragsL cs
def textFragsL : NodeList → List String
  | .nil => []
  | .cons n ns => textFrags n ++ textFragsL ns
end

/-- `bs4` `get_text(sep, strip=True)`: each text fragment is stripped, empty
fragments are dropped, and the survivors are joined with `sep`. -/
def get_text_sep (sep : String) (ns : NodeList) : String :=
  String.intercalate sep (((textFragsL ns).map pyStrip).filter (fun s => s ≠ ""))

mutual
/-- Apply a tag/attribute rewrite to every element of the tree, modelling one
`for el in cell.find_all(...)` pass whose body touches only the element
itself. -/
def mapElems (f : String → Attrs → String × Attrs) : Node → Node
  | .text s => .text s
  | .elem t a cs => .elem (f t a).1 (f t a).2 (mapElemsL f cs)
def mapElemsL (f : String → Attrs → String × Attrs) : NodeList → NodeList
  | .nil => .nil
  | .cons n ns => .cons (mapElems f n) (mapElemsL f ns)
end

mutual
/-- The unwrap pass (source lines 72-74): every element whose tag is not in
`ALLOWED_TAGS` is replaced by its children; the element and its attributes
are discarded. -/
def unwrapN : Node → NodeList
  | .text s => .cons (.text s) .nil
  | .elem t a cs =>
    if t ∈ ALLOWED_TAGS then .cons (.elem t a (unwrapL cs)) .nil else unwrapL cs
def unwrapL : NodeList → NodeList
  | .nil => .nil
  | .cons n ns => unwrapN n ++ unwrapL ns
end

mutual
/-- Every element of the tree carries an allowed tag. -/
def allAllowed : Node → Bool
  | .text _ => true
  | .elem t _ cs => decide (t ∈ ALLOWED_TAGS) && allAllowedL cs
def allAllowedL : NodeList → Bool
  | .nil => true
  | .cons n ns => allAllowed n && allAllowedL ns
end

/-- `bs4` text escaping on serialization (`&`, `<`, `>`). -/
def escTextL : List Char → List Char
  | [] => []
  | c :: r =>
    (if c = '&' then "&amp;".data
     else if c = '<' then "&lt;".data
     else if c = '>' then "&gt;".data
     else [c]) ++ escTextL r

/-- `bs4` attribute-value escaping (adds `"`). -/
def escAttrL : List Char → List Char
  | [] => []
  | c :: r =>
    (if c = '&' then "&amp;".data
     else if c = '<' then "&lt;".data
     else if c = '>' then "&gt;".data
     else if c = '"' then "&quot;".data
     else [c]) ++ escAttrL r

/-- Serialize the attributes of an element.  `bs4` keeps the attribute order
of the parsed document; the model fixes the order class, style, href, rest. -/
def attrStr (a : Attrs) : String :=
  (match a.classAttr with
   | some toks => " class=\"" ++ String.intercalate " " toks ++ "\""
   | none => "")
  ++ (match a.style with
      | some v => " style=\"" ++ (⟨escAttrL v.data⟩ : String) ++ "\""
      | none => "")
  ++ (match a.href with
      | some v => " href=\"" ++ (⟨escAttrL v.data⟩ : String) ++ "\""
      | none => "")
  ++ String.join (a.other.map (fun p => " " ++ p.1 ++ "=\"" ++ (⟨escAttrL p.2.data⟩ : String) ++ "\""))

mutual
/-- `bs4` `decode_contents()`: serialize a node back to HTML text; `br` is a
void element and serializes as `<br/>`. -/
def serializeN : Node → String
  | .text s => ⟨escTextL s.data⟩
  | .elem t a cs =>
    if t = "br" then "<" ++ t ++ attrStr a ++ "/>" ++ serializeL cs
    else "<" ++ t ++ attrStr a ++ ">" ++ serializeL cs ++ "</" ++ t ++ ">"
def serializeL : NodeList → String
  | .nil => ""
  | .cons n ns => serializeN n ++ serializeL ns
end

/-! ## Inline sanitizer (`sanitize_inline_html`) -/

/-- The per-element action of the `<mark>` pass (source lines 58-60): rename
`mark` to `span` and run the color-class conversion on it. -/
def markStep (t : String) (a : Attrs) : String × Attrs :=
  if t = "mark" then ("span", convert_color_classes_to_inline a) else (t, a)

/-- The per-element action of the `<span>` pass (source lines 63-64). -/
def spanStep (t : String) (a : Attrs) : String × Attrs :=
  if t = "span" then (t, convert_color_classes_to_inline a) else (t, a)

/-- `a.attrs = {"href": href} if href else {}` (source lines 67-69): Python
truthiness drops the attribute when `href` is absent or the empty string. -/
def anchorCleanAttrs (a : Attrs) : Attrs :=
  match a.href with
  | some h => if h = "" then {} else { href := some h }
  | none => {}

/-- The per-element action of the `<a>` pass. -/
def anchorStep (t : String) (a : Attrs) : String × Attrs :=
  if t = "a" then (t, anchorCleanAttrs a) else (t, a)

/-- The style filter of source lines 79-83 (and 103-107): split the inline
style on `;`, drop every declaration whose stripped text starts with
`background-color`, drop blank declarations, and rejoin with `;`. -/
def stripBgStyle (v : String) : String :=
  let parts := splitOnSemi v.data
  let kept := parts.filter
    (fun s => ¬ ("background-color".data).isPrefixOf (pyStripL s))
  ⟨joinWith ";".data (kept.filter (fun s => pyStripL s ≠ []))⟩

/-- The per-element action of the background-stripping pass (lines 77-83):
only elements that have a `style` attribute are touched. -/
def bgStep (t : String) (a : Attrs) : String × Attrs :=
  match a.style with
  | some v => (t, { a with style := some (stripBgStyle v) })
  | none => (t, a)

/-- The tree phase of rich-mode sanitization, in source order: the `mark`
pass, the `span` pass, the `a` pass, the unwrap pass, the
background-stripping pass. -/
def sanitizeTree (ns : NodeList) : NodeList :=
  mapElemsL bgStep (unwrapL (mapElemsL anchorStep (mapElemsL spanStep (mapElemsL markStep ns))))

/-- An apostrophe, kept out of string literals. -/
def sq : String := ⟨[Char.ofNat 39]⟩

/-- The opening of the monospace `<div>` emitted by `fence_replacer`
(source lines 109-114). -/
def fenceDivOpen : String :=
  "<div style=\"font-family:Menlo,Consolas," ++ sq ++ "Courier New" ++ sq
    ++ ",monospace; white-space:pre\">"

/-- `fence_replacer` (source lines 96-114) modelled for a fenced region that
contains no element markup (`<`) and no character entity (`&`): such a
region re-parses to a single text node, the background-stripping loop finds
no element, and `decode_contents` serializes the text node with `bs4` text
escaping (`escTextL`, which on `<`- and `&`-free text escapes exactly `>`),
so the replacement is the escaped region wrapped in the monospace `<div>`. -/
def fence_replacer (inner : List Char) : List Char :=
  fenceDivOpen.data ++ escTextL inner ++ "</div>".data

/-- `re.sub(r"```(.*?)```", rep, s, flags=re.DOTALL)`: repeatedly take the
leftmost pair of triple-backtick delimiters with the shortest inner region
and replace it, continuing after the replacement.  Fuel-based so the
definition stays structural; `fenceSubStr` supplies enough fuel. -/
def fenceSubAux (rep : List Char → List Char) : Nat → List Char → List Char
  | 0, s => s
  | fuel + 1, s =>
    match splitOnFirst "```".data s with
    | none => s
    | some (b, r) =>
      match splitOnFirst "```".data r with
      | none => s
      | some (inner, post) => b ++ rep inner ++ fenceSubAux rep fuel post

/-- The triple-backtick substitution over a string. -/
def fenceSubStr (rep : List Char → List Char) (s : String) : String :=
  ⟨fenceSubAux rep s.data.length s.data⟩

/-- The `<br>` normalization of source lines 86-90. -/
def normBr (s : String) : String :=
  replaceAllStr "<br />" "<br/>" (replaceAllStr "<br>" "<br/>" s)

/-- The string phase of rich-mode sanitization (source lines 86-121):
normalize `<br>` variants, turn `<br/>` into newlines, substitute fenced
code blocks, and turn the remaining newlines back into `<br/>`. -/
def fencePipeline (s : String) : String :=
  replaceAllStr "\n" "<br/>"
    (fenceSubStr fence_replacer (replaceAllStr "<br/>" "\n" (normBr s)))

/-- `sanitize_inline_html` (source lines 53-121) on the children of a cell:
strip-all mode returns the visible text joined by single spaces; rich mode
runs the tree phase, serializes, and runs the string phase. -/
def sanitize_inline_html (cell : NodeList) (strip_all : Bool) : String :=
  if strip_all then get_text_sep " " cell
  else fencePipeline (serializeL (sanitizeTree cell))

/-! ## Tag extractor (`tags_from_cell`) -/

/-- A delimiter of the regex class `[,;\n]`. -/
def tagDelim (c : Char) : Bool := c = ',' || c = ';' || c = '\n'

/-- Source lines 125-128: split the raw text on runs of `[,;\n]`, strip each
piece, keep the non-empty ones. -/
def tagRawTokens (raw : String) : List String :=
  ((splitRuns tagDelim raw.data).map pyStripL).filter (fun t => t ≠ []) |>.map (⟨·⟩)

/-- Source line 135: strip the token, collapse whitespace runs to a dash,
strip leading/trailing commas and semicolons. -/
def procTok (t : String) : String :=
  ⟨stripCommaSemiL (collapseWs (pyStripL t.data))⟩

/-- The processed tokens of the tag cell, before deduplication. -/
def tagProcTokens (raw : String) : List String :=
  (tagRawTokens raw).map procTok

/-- The deduplication loop of source lines 130-139: keep a token when it is
non-empty and not seen before. -/
def dedupKeep (seen : List String) : List String → List String
  | [] => []
  | t :: ts =>
    if t ≠ "" ∧ t ∉ seen then t :: dedupKeep (t :: seen) ts else dedupKeep seen ts

/-- The deduplicated tag tokens, in first-seen order. -/
def tagCleanTokens (raw : String) : List String :=
  dedupKeep [] (tagProcTokens raw)

/-- `tags_from_cell` on the extracted raw text (source lines 123-141). -/
def tags_from_raw (raw : String) : String :=
  String.intercalate " " (tagCleanTokens raw)

/-- `tags_from_cell` (source lines 123-141). -/
def tags_from_cell (cell : NodeList) : String :=
  tags_from_raw (get_text_sep " " cell)

/-! ## Table parser and row emitter -/

structure ColMap where
  id : Option Nat := none
  front : Option Nat := none
  back : Option Nat := none
  tags : Option Nat := none
deriving Repr, DecidableEq

/-- The header test chain of `parse_table` (source lines 149-157) for one
header cell; `name` is the lowercased stripped header text. -/
def colStep (m : ColMap) (idx : Nat) (name : String) : ColMap :=
  if containsSub "notion-id" name then { m with id := some idx }
  else if name = "front" then { m with front := some idx }
  else if name = "back" then { m with back := some idx }
  else if containsSub "tags" name then { m with tags := some idx }
  else m

def colMapAux (i : Nat) (m : ColMap) : List String → ColMap
  | [] => m
  | h :: t => colMapAux (i + 1) (colStep m i h) t

/-- The column map built from the lowercased stripped header texts. -/
def parseColMap (headers : List String) : ColMap := colMapAux 0 {} headers

/-- Python `str.lower()` (ASCII range). -/
def pyLower (s : String) : String := ⟨s.data.map Char.toLower⟩

/-- `parse_table` (source lines 143-159) reduced to its column map: the
header texts are extracted with `get_text(strip=True)` and lowercased. -/
def parse_table_cols (ths : List NodeList) : ColMap :=
  parseColMap (ths.map (fun c => pyLower (get_text_sep "" c)))

/-- One output record (source lines 178-183). -/
structure Row where
  notionId : String
  front : String
  back : String
  tags : String
deriving Repr, DecidableEq

/-- The fixed CSV header (source line 187). -/
def headerRow : Row := ⟨"Notion-ID", "Front", "Back", "Tags"⟩

/-- The input document as seen by `convert_file`: `soup.find("table")`,
`table.find("thead")` with its `th` cells, `table.find("tbody")` with the
`td` cells of each `tr`.  A `none` models the element being absent, on which
the Python attribute access raises. -/
structure TableEl where
  thead : Option (List NodeList) := none
  tbody : Option (List (List NodeList)) := none
deriving Repr

structure HtmlDoc where
  table : Option TableEl := none
deriving Repr

/-- Processing of one `tr` (source lines 168-183): rows without `td` cells
are skipped; otherwise the id, front and back columns are looked up in the
column map (`KeyError` when absent) and indexed into the row (`IndexError`
when out of range); tags default to the empty string when no tags column
exists.  An exception aborts the whole run. -/
def processRow (cm : ColMap) (tds : List NodeList) : Except String (Option Row) :=
  if tds.isEmpty then .ok none
  else
    match cm.id with
    | none => .error "KeyError: id"
    | some i =>
      match tds.get? i with
      | none => .error "IndexError: id"
      | some idCell =>
        let nid := get_text_sep "" idCell
        match cm.front with
        | none => .error "KeyError: front"
        | some fi =>
          match tds.get? fi with
          | none => .error "IndexError: front"
          | some fCell =>
            let fr := sanitize_inline_html fCell true
            match cm.back with
            | none => .error "KeyError: back"
            | some bi =>
              match tds.get? bi with
              | none => .error "IndexError: back"
              | some bCell =>
                let bk := sanitize_inline_html bCell false
                match cm.tags with
                | none => .ok (some ⟨nid, fr, bk, ""⟩)
                | some ti =>
                  match tds.get? ti with
                  | none => .error "IndexError: tags"
                  | some tCell => .ok (some ⟨nid, fr, bk, tags_from_cell tCell⟩)

/-- The row loop of `convert_file`. -/
def processRows (cm : ColMap) : List (List NodeList) → Except String (List Row)
  | [] => .ok []
  | tds :: rest =>
    match processRow cm tds with
    | .error e => .error e
    | .ok none => processRows cm rest
    | .ok (some r) =>
      match processRows cm rest with
      | .error e => .error e
      | .ok rs => .ok (r :: rs)

/-- `convert_file` (source lines 161-190).  The returned list is the content
of the written CSV file, header line first; an `error` is an uncaught Python
exception, which aborts the run before the output file is opened (the file
is only opened after the whole row list has been computed). -/
def convert_file (d : HtmlDoc) : Except String (List Row) :=
  match d.table with
  | none => .error "AttributeError: no table"
  | some t =>
    match t.thead with
    | none => .error "AttributeError: no thead"
    | some ths =>
      let cm := parse_table_cols ths
      match t.tbody with
      | none => .error "AttributeError: no tbody"
      | some trs =>
        match processRows cm trs with
        | .error e => .error e
        | .ok rows => .ok (headerRow :: rows)

/-! ## Helper lemmas -/

theorem foldl_colorStyleStep_eq (st : Option String) (l : List String)
    (h : ∀ c ∈ l, matchColorClass c = none) : l.foldl colorStyleStep st = st := by
  induction l generalizing st with
  | nil => rfl
  | cons c t ih =>
    have hc := h c (by simp)
    rw [List.foldl_cons]
    rw [show colorStyleStep st c = st by simp [colorStyleStep, hc]]
    exact ih st (fun x hx => h x (by simp [hx]))

theorem filter_nomatch_eq_self (l : List String)
    (h : ∀ c ∈ l, matchColorClass c = none) :
    l.filter (fun cls => (matchColorClass cls).isNone) = l := by
  apply List.filter_eq_self.mpr
  intro a ha
  simp [h a ha]

/-! ## Claims -/

/-- C3: for every element carrying a single class token matching
`highlight-<key>` or `block-color-<key>` among otherwise non-matching
tokens: when the key does not end in `_background` and is a known color-map
key, `color:<css-color>` is appended to the inline style (merged with any
existing style, separated by `;`); when the key ends in `_background` or is
unknown, the style is unchanged; the matched token is removed, the
non-matching tokens are preserved in order, and the class attribute is
deleted entirely when no token remains. -/
theorem claim_C3 (cs1 cs2 : List String) (tok key : String) (st : Option String)
    (hrf : Option String) (oth : List (String × String))
    (h1 : ∀ c ∈ cs1, matchColorClass c = none)
    (h2 : ∀ c ∈ cs2, matchColorClass c = none)
    (hm : matchColorClass tok = some key) :
    convert_color_classes_to_inline ⟨some (cs1 ++ tok :: cs2), st, hrf, oth⟩ =
      ⟨if cs1 ++ cs2 = [] then none else some (cs1 ++ cs2),
       (if ("_background".data).isSuffixOf key.data then st
        else
          match CSS_COLOR_MAP key with
          | some col => some (merge_style st ("color:" ++ col))
          | none => st),
       hrf, oth⟩ := by
  have hfold : (cs1 ++ tok :: cs2).foldl colorStyleStep st =
      (if ("_background".data).isSuffixOf key.data then st
       else
         match CSS_COLOR_MAP key with
         | some col => some (merge_style st ("color:" ++ col))
         | none => st) := by
    rw [List.foldl_append, foldl_colorStyleStep_eq st cs1 h1, List.foldl_cons,
      foldl_colorStyleStep_eq _ cs2 h2]
    simp [colorStyleStep, hm]
  have hfilter : (cs1 ++ tok :: cs2).filter (fun cls => (matchColorClass cls).isNone) =
      cs1 ++ cs2 := by
    rw [List.filter_append, List.filter_cons, filter_nomatch_eq_self cs1 h1,
      filter_nomatch_eq_self cs2 h2]
    simp [hm]
  cases cs1 with
  | nil =>
    simp only [List.nil_append] at hfold hfilter ⊢
    simp only [convert_color_classes_to_inline, hfold, hfilter]
    cases cs2 <;> simp
  | cons c cs1' =>
    simp only [List.cons_append] at hfold hfilter ⊢
    simp only [convert_color_classes_to_inline, hfold, hfilter]
    simp

/-- Witness for C3 at a concrete element: an existing style, one unrelated
class token, and one matching `highlight-red` token. -/
theorem claim_C3_witness :
    convert_color_classes_to_inline
        ⟨some ["x", "highlight-red"], some "font-size:10px", none, []⟩ =
      ⟨some ["x"], some "font-size:10px;color:red", none, []⟩ := by
  exact claim_C3 ["x"] [] "highlight-red" "red" (some "font-size:10px") none []
    (by decide) (by decide) (by decide)

/-- C10: the color-class normalizer is idempotent on every element: a second
application changes neither the class list nor the style, because the first
application has removed every matching class token. -/
theorem claim_C10 (a : Attrs) :
    convert_color_classes_to_inline (convert_color_classes_to_inline a) =
      convert_color_classes_to_inline a := by
  obtain ⟨ca, st, hf, ot⟩ := a
  cases ca with
  | none => rfl
  | some cs =>
    cases cs with
    | nil => rfl
    | cons c cs' =>
      simp only [convert_color_classes_to_inline]
      have hkept : ∀ x ∈ (c :: cs').filter (fun cls => (matchColorClass cls).isNone),
          matchColorClass x = none := by
        intro x hx
        have := (List.mem_filter.mp hx).2
        simpa [Option.isNone_iff_eq_none] using this
      cases hk : (c :: cs').filter (fun cls => (matchColorClass cls).isNone) with
      | nil => simp
      | cons k ks =>
        rw [hk] at hkept
        have h1 := foldl_colorStyleStep_eq (List.foldl colorStyleStep st (c :: cs')) _ hkept
        have h2 := filter_nomatch_eq_self _ hkept
        simp [h1, h2, -List.foldl_cons]

theorem not_mem_seen_of_mem_dedupKeep {x : String} {seen l : List String}
    (h : x ∈ dedupKeep seen l) : x ∉ seen := by
  induction l generalizing seen with
  | nil => simp [dedupKeep] at h
  | cons t ts ih =>
    rw [dedupKeep] at h
    by_cases hc : t ≠ "" ∧ t ∉ seen
    · rw [if_pos hc] at h
      rcases List.mem_cons.mp h with rfl | h2
      · exact hc.2
      · intro hx
        exact ih h2 (List.mem_cons_of_mem _ hx)
    · rw [if_neg hc] at h
      exact ih h

theorem dedupKeep_nodup (seen l : List String) : (dedupKeep seen l).Nodup := by
  induction l generalizing seen with
  | nil => simp [dedupKeep]
  | cons t ts ih =>
    rw [dedupKeep]
    by_cases hc : t ≠ "" ∧ t ∉ seen
    · rw [if_pos hc]
      refine List.nodup_cons.mpr ⟨?_, ih _⟩
      intro hmem
      exact not_mem_seen_of_mem_dedupKeep hmem (List.mem_cons_self t seen)
    · rw [if_neg hc]
      exact ih _

theorem dedupKeep_sublist (seen l : List String) :
    List.Sublist (dedupKeep seen l) l := by
  induction l generalizing seen with
  | nil => simp [dedupKeep]
  | cons t ts ih =>
    rw [dedupKeep]
    by_cases hc : t ≠ "" ∧ t ∉ seen
    · rw [if_pos hc]
      exact List.Sublist.cons₂ t (ih _)
    · rw [if_neg hc]
      exact List.Sublist.cons t (ih _)

theorem mem_dedupKeep_of_mem {x : String} {seen l : List String}
    (hm : x ∈ l) (hne : x ≠ "") (hs : x ∉ seen) : x ∈ dedupKeep seen l := by
  induction l generalizing seen with
  | nil => simp at hm
  | cons t ts ih =>
    rw [dedupKeep]
    by_cases hc : t ≠ "" ∧ t ∉ seen
    · rw [if_pos hc]
      rcases List.mem_cons.mp hm with rfl | h2
      · exact List.mem_cons_self _ _
      · by_cases hxt : x = t
        · subst hxt
          exact List.mem_cons_self _ _
        · exact List.mem_cons_of_mem _
            (ih h2 (by simp [hxt, hs]))
    · rw [if_neg hc]
      rcases List.mem_cons.mp hm with rfl | h2
      · exact absurd ⟨hne, hs⟩ hc
      · exact ih h2 hs

/-- C4: the tag extractor on the example from the specification, the empty
input, and in general: the emitted token list is duplicate-free, is a
subsequence of the processed tokens (first-seen order preserved), and every
non-empty processed token survives deduplication. -/
theorem claim_C4 :
    tags_from_raw "foo, Bar Baz;; qux" = "foo Bar-Baz qux"
    ∧ tags_from_raw "" = ""
    ∧ ∀ raw : String, (tagCleanTokens raw).Nodup
      ∧ List.Sublist (tagCleanTokens raw) (tagProcTokens raw)
      ∧ ∀ t ∈ tagProcTokens raw, t ≠ "" → t ∈ tagCleanTokens raw := by
  refine ⟨by decide, by decide, fun raw => ⟨dedupKeep_nodup _ _, dedupKeep_sublist _ _, ?_⟩⟩
  intro t hm hne
  exact mem_dedupKeep_of_mem hm hne (by simp)

/-- Witness for C4: the deduplication conjunct applied at a concrete token of
a concrete tag cell. -/
theorem claim_C4_witness : "foo" ∈ tagCleanTokens "foo, Bar Baz;; qux" := by
  exact (claim_C4.2.2 "foo, Bar Baz;; qux").2.2 "foo" (by decide) (by decide)

theorem colMapAux_append (hs : List String) (i : Nat) (m : ColMap) (h : String) :
    colMapAux i m (hs ++ [h]) = colStep (colMapAux i m hs) (i + hs.length) h := by
  induction hs generalizing i m with
  | nil => simp [colMapAux]
  | cons x xs ih =>
    rw [List.cons_append, colMapAux, colMapAux, ih]
    congr 1
    simp [List.length_cons]
    omega

/-- C5: the column map tests each header cell's lowercased trimmed text in
order — containing `notion-id` maps the id column; else equality with
`front` maps the front column; else equality with `back` maps the back
column; else containing `tags` maps the tags column — the first satisfied
predicate wins within a cell, and a later header cell satisfying a predicate
overwrites the index an earlier cell stored, the other fields being kept. -/
theorem claim_C5 (hs : List String) (h : String) :
    (containsSub "notion-id" h = true →
      parseColMap (hs ++ [h]) = { parseColMap hs with id := some hs.length })
    ∧ (containsSub "notion-id" h = false → h = "front" →
      parseColMap (hs ++ [h]) = { parseColMap hs with front := some hs.length })
    ∧ (containsSub "notion-id" h = false → h ≠ "front" → h = "back" →
      parseColMap (hs ++ [h]) = { parseColMap hs with back := some hs.length })
    ∧ (containsSub "notion-id" h = false → h ≠ "front" → h ≠ "back" →
      containsSub "tags" h = true →
      parseColMap (hs ++ [h]) = { parseColMap hs with tags := some hs.length })
    ∧ (containsSub "notion-id" h = false → h ≠ "front" → h ≠ "back" →
      containsSub "tags" h = false → parseColMap (hs ++ [h]) = parseColMap hs) := by
  have key : parseColMap (hs ++ [h]) = colStep (parseColMap hs) hs.length h := by
    unfold parseColMap
    rw [colMapAux_append]
    simp
  refine ⟨?_, ?_, ?_, ?_, ?_⟩
  · intro h1
    rw [key]
    simp [colStep, h1]
  · intro h1 h2
    subst h2
    rw [key]
    simp [colStep, h1]
  · intro h1 h2 h3
    subst h3
    rw [key]
    simp [colStep, h1, h2]
  · intro h1 h2 h3 h4
    rw [key]
    simp [colStep, h1, h2, h3, h4]
  · intro h1 h2 h3 h4
    rw [key]
    simp [colStep, h1, h2, h3, h4]

/-- Witness for C5: two header cells both equal to `front`; the later cell's
index overwrites the earlier one. -/
theorem claim_C5_witness :
    parseColMap ["front", "front"] = { front := some 1 } := by
  exact (claim_C5 ["front"] "front").2.1 (by decide) rfl

theorem NodeList.nil_append (b : NodeList) : NodeList.nil ++ b = b := rfl

theorem NodeList.cons_append (n : Node) (ns b : NodeList) :
    NodeList.cons n ns ++ b = NodeList.cons n (ns ++ b) := rfl

theorem allAllowedL_append (a b : NodeList) :
    allAllowedL (a ++ b) = (allAllowedL a && allAllowedL b) := by
  cases a with
  | nil => simp [NodeList.nil_append, allAllowedL]
  | cons n ns =>
    rw [NodeList.cons_append, allAllowedL, allAllowedL, allAllowedL_append ns b,
      Bool.and_assoc]

mutual
theorem allAllowed_unwrapN (n : Node) : allAllowedL (unwrapN n) = true := by
  cases n with
  | text s => rfl
  | elem t a cs =>
    rw [unwrapN]
    by_cases ht : t ∈ ALLOWED_TAGS
    · rw [if_pos ht]
      have hcs := allAllowed_unwrapL cs
      simp [allAllowedL, allAllowed, ht, hcs]
    · rw [if_neg ht]
      exact allAllowed_unwrapL cs
theorem allAllowed_unwrapL (ns : NodeList) : allAllowedL (unwrapL ns) = true := by
  cases ns with
  | nil => rfl
  | cons n ns2 =>
    rw [unwrapL, allAllowedL_append, allAllowed_unwrapN n, allAllowed_unwrapL ns2]
    rfl
end

/-- C6: after the rich-mode unwrap pass every element left in the tree
carries an allowed tag; an element with a disallowed tag is unwrapped, its
children promoted to its position and its attributes discarded; in
particular a cell holding a heading wrapper (with attributes) around plain
text yields the inner text alone. -/
theorem claim_C6 :
    (∀ ns : NodeList, allAllowedL (unwrapL ns) = true)
    ∧ (∀ (t : String) (a : Attrs) (cs : NodeList), t ∉ ALLOWED_TAGS →
        unwrapN (.elem t a cs) = unwrapL cs)
    ∧ unwrapL (.cons (.elem "h1" ⟨some ["c"], some "color:red", none, []⟩
        (.cons (.text "hello") .nil)) .nil) = .cons (.text "hello") .nil := by
  refine ⟨allAllowed_unwrapL, fun t a cs ht => ?_, rfl⟩
  rw [unwrapN, if_neg ht]

/-- Witness for C6: the unwrap equation applied at a concrete disallowed
heading element. -/
theorem claim_C6_witness :
    unwrapN (.elem "h1" ⟨some ["c"], none, none, []⟩ (.cons (.text "hi") .nil)) =
      unwrapL (.cons (.text "hi") .nil) := by
  exact claim_C6.2.1 "h1" ⟨some ["c"], none, none, []⟩ (.cons (.text "hi") .nil)
    (by decide)

/-- C7 counterexample: the claim states that every link element has all
attributes removed except `href`.  For a link whose `href` attribute is
present but empty, the code (`a.attrs = {"href": href} if href else {}`,
Python truthiness) removes the `href` attribute as well. -/
theorem claim_C7_cex :
    anchorCleanAttrs ⟨some ["c"], some "color:red", some "", []⟩ = ⟨none, none, none, []⟩
    ∧ (⟨some ["c"], some "color:red", some "", []⟩ : Attrs).href ≠ none := by
  exact ⟨rfl, by decide⟩

/-- C7 amended: every link element keeps a non-empty `href` as its only
attribute; a link whose `href` is absent or empty keeps no attribute at all
and remains a plain `a` tag; on the tree, the `a` pass rewrites exactly the
attributes of every `a` element this way. -/
theorem claim_C7_amended :
    (∀ (a : Attrs) (h : String), a.href = some h → h ≠ "" →
      anchorCleanAttrs a = { href := some h })
    ∧ (∀ a : Attrs, a.href = none ∨ a.href = some "" → anchorCleanAttrs a = {})
    ∧ (∀ cs : NodeList,
      mapElems anchorStep (.elem "a" ⟨some ["c"], some "s", some "https://x", []⟩ cs) =
        .elem "a" { href := some "https://x" } (mapElemsL anchorStep cs)) := by
  refine ⟨fun a h hh hne => ?_, fun a hh => ?_, fun cs => ?_⟩
  · rw [anchorCleanAttrs, hh]
    simp [hne]
  · rcases hh with hh | hh <;> simp [anchorCleanAttrs, hh]
  · simp [mapElems, anchorStep, anchorCleanAttrs]

/-- Witness for C7 at a concrete link carrying class and style attributes
plus `href="https://x"`: only the `href` survives. -/
theorem claim_C7_witness :
    anchorCleanAttrs ⟨some ["c"], some "s", some "https://x", []⟩ =
      { href := some "https://x" } := by
  exact claim_C7_amended.1 ⟨some ["c"], some "s", some "https://x", []⟩ "https://x"
    rfl (by decide)

theorem splitOnFirst_eq_append (pat : List Char) (s b a : List Char)
    (h : splitOnFirst pat s = some (b, a)) : s = b ++ pat ++ a := by
  induction s generalizing b with
  | nil =>
    rw [splitOnFirst] at h
    by_cases hp : pat.isPrefixOf ([] : List Char)
    · rw [if_pos hp] at h
      have hpnil : pat = [] := List.prefix_nil.mp (List.isPrefixOf_iff_prefix.mp hp)
      cases h
      simp [hpnil]
    · rw [if_neg hp] at h
      cases h
  | cons c rest ih =>
    rw [splitOnFirst] at h
    by_cases hp : pat.isPrefixOf (c :: rest)
    · rw [if_pos hp] at h
      obtain ⟨t, ht⟩ := List.isPrefixOf_iff_prefix.mp hp
      cases h
      rw [← ht, List.drop_left]
      simp
    · rw [if_neg hp] at h
      cases hs : splitOnFirst pat rest with
      | none => rw [hs] at h; cases h
      | some p =>
        obtain ⟨b2, a2⟩ := p
        rw [hs] at h
        cases h
        have := ih b2 hs
        simp [this]

theorem splitOnFirst_eq_none (pat s : List Char) (x : Char)
    (hx : x ∈ pat) (hs : x ∉ s) : splitOnFirst pat s = none := by
  cases h : splitOnFirst pat s with
  | none => rfl
  | some p =>
    obtain ⟨b, a⟩ := p
    have := splitOnFirst_eq_append pat s b a h
    exact absurd (this ▸ (by simp [hx] : x ∈ b ++ pat ++ a)) hs

theorem replaceAllAux_id (pat rep : List Char) (fuel : Nat) (s : List Char)
    (h : splitOnFirst pat s = none) : replaceAllAux pat rep fuel s = s := by
  cases fuel with
  | zero => rfl
  | succ n => rw [replaceAllAux, h]

theorem replaceAllStr_id (pat rep : String) (s : String)
    (h : splitOnFirst pat.data s.data = none) : replaceAllStr pat rep s = s := by
  rw [replaceAllStr, replaceAllAux_id pat.data rep.data _ _ h]

theorem splitOnFirst_eq_some (p0 : Char) (pt pre rest s : List Char)
    (hs : s = pre ++ (p0 :: pt) ++ rest) (hpre : ∀ c ∈ pre, c ≠ p0) :
    splitOnFirst (p0 :: pt) s = some (pre, rest) := by
  subst hs
  induction pre with
  | nil =>
    rw [List.nil_append, List.cons_append, splitOnFirst]
    rw [if_pos (List.isPrefixOf_iff_prefix.mpr (by rw [← List.cons_append]; exact List.prefix_append _ _))]
    rw [← List.cons_append, List.drop_left]
  | cons c pre2 ih =>
    rw [List.cons_append, List.cons_append, splitOnFirst]
    have hc : (p0 :: pt).isPrefixOf (c :: (pre2 ++ p0 :: pt ++ rest)) = false := by
      have hne : ¬ c = p0 := fun he => hpre c (by simp) he
      have hbeq : (p0 == c) = false := beq_eq_false_iff_ne.mpr (Ne.symm hne)
      simp only [List.isPrefixOf, hbeq, Bool.false_and]
    rw [if_neg (by rw [hc]; decide)]
    rw [ih (fun d hd => hpre d (by simp [hd]))]

theorem fenceSubAux_no_tick (rep : List Char → List Char) (fuel : Nat) (s : List Char)
    (h : ∀ c ∈ s, c ≠ tickChar) : fenceSubAux rep fuel s = s := by
  cases fuel with
  | zero => rfl
  | succ n =>
    rw [fenceSubAux,
      splitOnFirst_eq_none "```".data s tickChar (by decide) (fun hm => h _ hm rfl)]

theorem fenceSubAux_fence (rep : List Char → List Char) (fuel : Nat)
    (pre inner post : List Char)
    (hpre : ∀ c ∈ pre, c ≠ tickChar) (hin : ∀ c ∈ inner, c ≠ tickChar)
    (hpost : ∀ c ∈ post, c ≠ tickChar) :
    fenceSubAux rep (fuel + 1) (pre ++ "```".data ++ inner ++ "```".data ++ post)
      = pre ++ rep inner ++ post := by
  have h3 : "```".data = tickChar :: "``".data := rfl
  have h1 : splitOnFirst "```".data (pre ++ "```".data ++ inner ++ "```".data ++ post)
      = some (pre, inner ++ "```".data ++ post) := by
    rw [h3]
    exact splitOnFirst_eq_some tickChar "``".data pre (inner ++ "```".data ++ post) _
      (by rw [← h3]; simp [List.append_assoc]) hpre
  have h2 : splitOnFirst "```".data (inner ++ "```".data ++ post)
      = some (inner, post) := by
    rw [h3]
    exact splitOnFirst_eq_some tickChar "``".data inner post _
      (by rw [← h3]) hin
  rw [fenceSubAux]
  simp only [h1, h2]
  rw [fenceSubAux_no_tick rep fuel post hpost]

theorem escTextL_no_newline (l : List Char) (h : '\n' ∉ l) : '\n' ∉ escTextL l := by
  induction l with
  | nil => simp [escTextL]
  | cons c r ih =>
    rw [escTextL]
    intro hm
    rcases List.mem_append.mp hm with hm | hm
    · have hc : ¬ c = '\n' := fun he => h (by simp [he])
      by_cases h1 : c = '&'
      · rw [if_pos h1] at hm
        exact absurd hm (by decide)
      · rw [if_neg h1] at hm
        by_cases h2 : c = '<'
        · rw [if_pos h2] at hm
          exact absurd hm (by decide)
        · rw [if_neg h2] at hm
          by_cases h3 : c = '>'
          · rw [if_pos h3] at hm
            exact absurd hm (by decide)
          · rw [if_neg h3] at hm
            have hcn : '\n' = c := by simpa using hm
            exact hc hcn.symm
    · exact ih (fun hmem => h (by simp [hmem])) hm

theorem splitOnSemi_no_semi (d : List Char) (h : ';' ∉ d) : splitOnSemi d = [d] := by
  induction d with
  | nil => rfl
  | cons c r ih =>
    rw [splitOnSemi]
    have hc : ¬ c = ';' := fun he => h (by simp [he])
    rw [if_neg hc, ih (fun hm => h (by simp [hm]))]

theorem splitOnSemi_append (d t : List Char) (h : ';' ∉ d) :
    splitOnSemi (d ++ ';' :: t) = d :: splitOnSemi t := by
  induction d with
  | nil => rw [List.nil_append, splitOnSemi, if_pos rfl]
  | cons c r ih =>
    rw [List.cons_append, splitOnSemi]
    have hc : ¬ c = ';' := fun he => h (by simp [he])
    rw [if_neg hc, ih (fun hm => h (by simp [hm]))]

theorem splitOnSemi_joinWith (ds : List (List Char)) (hne : ds ≠ [])
    (h : ∀ d ∈ ds, ';' ∉ d) : splitOnSemi (joinWith ";".data ds) = ds := by
  induction ds with
  | nil => exact absurd rfl hne
  | cons d rest ih =>
    cases rest with
    | nil => exact splitOnSemi_no_semi d (h d (by simp))
    | cons d2 r2 =>
      have hjoin : joinWith ";".data (d :: d2 :: r2)
          = d ++ ';' :: joinWith ";".data (d2 :: r2) := by
        show d ++ ";".data ++ joinWith ";".data (d2 :: r2)
          = d ++ ';' :: joinWith ";".data (d2 :: r2)
        rw [List.append_assoc]
        rfl
      rw [hjoin, splitOnSemi_append d _ (h d (by simp)),
        ih (by intro hh; exact List.noConfusion hh) (fun x hx => h x (by simp [hx]))]

/-- C8: each triple-backtick fenced region — located non-greedily over the
whole cell content once line breaks are newlines — is replaced by a
block-level `div` carrying the fixed monospace font stack and
`white-space:pre` and wrapping the region (serialized with `bs4` text
escaping), the surrounding text being preserved; and the style filter
applied inside fenced regions drops exactly the declarations whose stripped
text starts with `background-color` (and blank ones), preserving all other
declarations such as text color. -/
theorem claim_C8 :
    (∀ pre inner post : String,
      (∀ c ∈ pre.data, c ∉ "`<\n&".data) →
      (∀ c ∈ inner.data, c ∉ "`<\n&".data) →
      (∀ c ∈ post.data, c ∉ "`<\n&".data) →
      fencePipeline (pre ++ "```" ++ inner ++ "```" ++ post)
        = pre ++ fenceDivOpen ++ (⟨escTextL inner.data⟩ : String) ++ "</div>" ++ post)
    ∧ (∀ ds : List (List Char), ds ≠ [] → (∀ d ∈ ds, ';' ∉ d) →
      stripBgStyle ⟨joinWith ";".data ds⟩ =
        ⟨joinWith ";".data ((ds.filter
            (fun d => ¬ ("background-color".data).isPrefixOf (pyStripL d))).filter
          (fun d => pyStripL d ≠ []))⟩) := by
  constructor
  · intro pre inner post hpre hin hpost
    have hpreT : ∀ c ∈ pre.data, c ≠ tickChar := fun c hc he =>
      hpre c hc (by rw [he]; decide)
    have hinT : ∀ c ∈ inner.data, c ≠ tickChar := fun c hc he =>
      hin c hc (by rw [he]; decide)
    have hpostT : ∀ c ∈ post.data, c ≠ tickChar := fun c hc he =>
      hpost c hc (by rw [he]; decide)
    have hdata : (pre ++ "```" ++ inner ++ "```" ++ post).data
        = pre.data ++ "```".data ++ inner.data ++ "```".data ++ post.data := by
      simp only [String.data_append]
    have hno_lt : '<' ∉ (pre ++ "```" ++ inner ++ "```" ++ post).data := by
      rw [hdata]
      intro hm
      simp only [List.mem_append] at hm
      rcases hm with (((hm | hm) | hm) | hm) | hm
      · exact hpre '<' hm (by decide)
      · exact absurd hm (by decide)
      · exact hin '<' hm (by decide)
      · exact absurd hm (by decide)
      · exact hpost '<' hm (by decide)
    have e1 : normBr (pre ++ "```" ++ inner ++ "```" ++ post)
        = pre ++ "```" ++ inner ++ "```" ++ post := by
      rw [normBr,
        replaceAllStr_id _ _ _ (splitOnFirst_eq_none _ _ '<' (by decide) hno_lt),
        replaceAllStr_id _ _ _ (splitOnFirst_eq_none _ _ '<' (by decide) hno_lt)]
    have e2 : replaceAllStr "<br/>" "\n" (pre ++ "```" ++ inner ++ "```" ++ post)
        = pre ++ "```" ++ inner ++ "```" ++ post :=
      replaceAllStr_id _ _ _ (splitOnFirst_eq_none _ _ '<' (by decide) hno_lt)
    have e3 : fenceSubStr fence_replacer (pre ++ "```" ++ inner ++ "```" ++ post)
        = ⟨pre.data ++ fence_replacer inner.data ++ post.data⟩ := by
      rw [fenceSubStr]
      congr 1
      rw [hdata]
      have hlen : (pre.data ++ "```".data ++ inner.data ++ "```".data ++ post.data).length
          = (pre.data.length + inner.data.length + post.data.length + 5) + 1 := by
        simp only [List.length_append, List.length_cons, List.length_nil]
        omega
      rw [hlen]
      exact fenceSubAux_fence fence_replacer _ pre.data inner.data post.data
        hpreT hinT hpostT
    have hno_nl2 : '\n' ∉ (pre.data ++ fence_replacer inner.data ++ post.data) := by
      intro hm
      rw [fence_replacer] at hm
      simp only [List.mem_append] at hm
      rcases hm with (hm | (hm | hm) | hm) | hm
      · exact hpre '\n' hm (by decide)
      · exact absurd hm (by decide)
      · exact escTextL_no_newline inner.data (fun hmem => hin '\n' hmem (by decide)) hm
      · exact absurd hm (by decide)
      · exact hpost '\n' hm (by decide)
    rw [fencePipeline, e1, e2, e3,
      replaceAllStr_id _ _ _ (splitOnFirst_eq_none _ _ '\n' (by decide) hno_nl2)]
    apply String.ext
    simp only [String.data_append, fence_replacer, List.append_assoc]
  · intro ds hne h
    have hdm : (String.mk (joinWith ";".data ds)).data = joinWith ";".data ds := rfl
    simp only [stripBgStyle, hdm, splitOnSemi_joinWith ds hne h]

/-- Witness for C8: the fenced block example from the specification, a
fenced region containing `>` (escaped to `&gt;` by the inner re-parse), and
a concrete style whose `background-color` declaration is dropped while the
text color is preserved. -/
theorem claim_C8_witness :
    fencePipeline ("a " ++ "```" ++ "print(1)" ++ "```" ++ " b")
      = "a " ++ fenceDivOpen ++ "print(1)" ++ "</div>" ++ " b"
    ∧ fencePipeline ("a " ++ "```" ++ "x > y" ++ "```" ++ " b")
      = "a " ++ fenceDivOpen ++ "x &gt; y" ++ "</div>" ++ " b"
    ∧ stripBgStyle "color:red;background-color:blue" = "color:red" := by
  refine ⟨?_, ?_, ?_⟩
  · exact claim_C8.1 "a " "print(1)" " b" (by decide) (by decide) (by decide)
  · exact claim_C8.1 "a " "x > y" " b" (by decide) (by decide) (by decide)
  · exact claim_C8.2 ["color:red".data, "background-color:blue".data]
      (by decide) (by decide)

theorem processRow_error (cm : ColMap) (a : NodeList) (l : List NodeList)
    (hmiss : cm.front = none ∨ cm.back = none) :
    ∃ e, processRow cm (a :: l) = .error e := by
  simp only [processRow, List.isEmpty_cons, Bool.false_eq_true, if_false]
  split
  · exact ⟨_, rfl⟩
  · split
    · exact ⟨_, rfl⟩
    · rcases hmiss with hf | hb
      · rw [hf]
        exact ⟨_, rfl⟩
      · split
        · exact ⟨_, rfl⟩
        · split
          · exact ⟨_, rfl⟩
          · rw [hb]
            exact ⟨_, rfl⟩

theorem processRows_error (cm : ColMap) (trs : List (List NodeList))
    (hmiss : cm.front = none ∨ cm.back = none)
    (hrow : ∃ tds ∈ trs, tds ≠ []) :
    ∃ e, processRows cm trs = .error e := by
  induction trs with
  | nil =>
    obtain ⟨t, ht, _⟩ := hrow
    exact absurd ht (by simp)
  | cons tds rest ih =>
    cases tds with
    | nil =>
      have hnext : ∃ tds ∈ rest, tds ≠ [] := by
        obtain ⟨t, ht, hne⟩ := hrow
        rcases List.mem_cons.mp ht with rfl | hmem
        · exact absurd rfl hne
        · exact ⟨t, hmem, hne⟩
      obtain ⟨e, he⟩ := ih hnext
      refine ⟨e, ?_⟩
      show processRows cm rest = .error e
      exact he
    | cons a l =>
      obtain ⟨e, he⟩ := processRow_error cm a l hmiss
      simp only [processRows, he]
      exact ⟨e, rfl⟩

theorem processRows_empty (cm : ColMap) (trs : List (List NodeList))
    (h : ∀ tds ∈ trs, tds = []) : processRows cm trs = .ok [] := by
  induction trs with
  | nil => rfl
  | cons tds rest ih =>
    have h0 : tds = [] := h tds (by simp)
    subst h0
    show processRows cm rest = .ok []
    exact ih (fun t ht => h t (by simp [ht]))

theorem processRow_error_id (cm : ColMap) (a : NodeList) (l : List NodeList)
    (hid : cm.id = none) : processRow cm (a :: l) = .error "KeyError: id" := by
  simp only [processRow, List.isEmpty_cons, Bool.false_eq_true, if_false, hid]

theorem processRows_error_id (cm : ColMap) (trs : List (List NodeList))
    (hid : cm.id = none) (hrow : ∃ tds ∈ trs, tds ≠ []) :
    processRows cm trs = .error "KeyError: id" := by
  induction trs with
  | nil =>
    obtain ⟨t, ht, _⟩ := hrow
    exact absurd ht (by simp)
  | cons tds rest ih =>
    cases tds with
    | nil =>
      have hnext : ∃ tds ∈ rest, tds ≠ [] := by
        obtain ⟨t, ht, hne⟩ := hrow
        rcases List.mem_cons.mp ht with rfl | hmem
        · exact absurd rfl hne
        · exact ⟨t, hmem, hne⟩
      show processRows cm rest = _
      exact ih hnext
    | cons a l =>
      simp only [processRows, processRow_error_id cm a l hid]

theorem processRow_ok_no_tags (cm : ColMap) (i f b : Nat) (a : NodeList)
    (l : List NodeList)
    (hid : cm.id = some i) (hf : cm.front = some f) (hb : cm.back = some b)
    (ht : cm.tags = none)
    (h1 : i < (a :: l).length) (h2 : f < (a :: l).length) (h3 : b < (a :: l).length) :
    processRow cm (a :: l) = .ok (some
      ⟨get_text_sep "" ((a :: l).get ⟨i, h1⟩),
       sanitize_inline_html ((a :: l).get ⟨f, h2⟩) true,
       sanitize_inline_html ((a :: l).get ⟨b, h3⟩) false, ""⟩) := by
  simp only [processRow, List.isEmpty_cons, Bool.false_eq_true, if_false,
    hid, hf, hb, ht, List.get?_eq_get h1, List.get?_eq_get h2, List.get?_eq_get h3]

theorem processRows_ok_no_tags (cm : ColMap) (i f b : Nat)
    (hid : cm.id = some i) (hf : cm.front = some f) (hb : cm.back = some b)
    (ht : cm.tags = none) (trs : List (List NodeList))
    (hbound : ∀ tds ∈ trs, tds ≠ [] →
      i < tds.length ∧ f < tds.length ∧ b < tds.length) :
    ∃ rows, processRows cm trs = .ok rows
      ∧ rows.length = (trs.filter (fun tds => ¬ tds.isEmpty)).length
      ∧ ∀ r ∈ rows, r.tags = "" := by
  induction trs with
  | nil => exact ⟨[], rfl, rfl, by simp⟩
  | cons tds rest ih =>
    obtain ⟨rows, hrows, hlen, htags⟩ :=
      ih (fun t ht' hne => hbound t (by simp [ht']) hne)
    cases tds with
    | nil =>
      refine ⟨rows, ?_, ?_, htags⟩
      · show processRows cm rest = .ok rows
        exact hrows
      · rw [hlen]
        congr 1
    | cons a l =>
      obtain ⟨h1, h2, h3⟩ := hbound (a :: l) (by simp) (by simp)
      have hrow := processRow_ok_no_tags cm i f b a l hid hf hb ht h1 h2 h3
      refine ⟨(⟨get_text_sep "" ((a :: l).get ⟨i, h1⟩),
        sanitize_inline_html ((a :: l).get ⟨f, h2⟩) true,
        sanitize_inline_html ((a :: l).get ⟨b, h3⟩) false, ""⟩ : Row) :: rows,
        ?_, ?_, ?_⟩
      · simp only [processRows, hrow, hrows]
      · simp only [List.length_cons, hlen, List.filter_cons, List.isEmpty_cons]
        simp
      · intro x hx
        rcases List.mem_cons.mp hx with rfl | hmem
        · rfl
        · exact htags x hmem

/-- C9: when no body row contains a cell element (every row is skipped, or
the body is empty), `convert_file` completes and writes a CSV consisting of
only the header line `Notion-ID,Front,Back,Tags`, whatever the header row
looked like — even when the column map lacks the front, back or id column,
since no column lookup ever happens. -/
theorem claim_C9 (ths : List NodeList) (trs : List (List NodeList))
    (h : ∀ tds ∈ trs, tds = []) :
    convert_file ⟨some ⟨some ths, some trs⟩⟩ = .ok [headerRow] := by
  simp only [convert_file, processRows_empty _ _ h]

/-- Witness for C9: a header resolving none of the columns, and a body of
two rows without any cell. -/
theorem claim_C9_witness :
    convert_file ⟨some ⟨some [.cons (.text "x") .nil], some [[], []]⟩⟩
      = .ok [headerRow] := by
  exact claim_C9 [.cons (.text "x") .nil] [[], []] (by decide)

/-- C1 counterexample: the claim states that an unresolved `front` or `back`
column makes the run fail.  For a table whose single header `x` resolves
neither column but whose body is empty, `convert_file` succeeds and writes
the header-only CSV: no lookup ever runs. -/
theorem claim_C1_cex :
    convert_file ⟨some ⟨some [.cons (.text "x") .nil], some []⟩⟩ = .ok [headerRow]
    ∧ (parse_table_cols [.cons (.text "x") .nil]).front = none
    ∧ (parse_table_cols [.cons (.text "x") .nil]).back = none :=
  ⟨rfl, rfl, rfl⟩

/-- C1 amended: if the `front` or `back` column cannot be resolved from the
header row AND at least one body row contains a cell element, the run fails
without producing the output file; and in general every run either fails —
producing no output — or fully completes, the output being the header line
followed by the emitted rows. -/
theorem claim_C1_amended :
    (∀ (ths : List NodeList) (trs : List (List NodeList)),
      (parse_table_cols ths).front = none ∨ (parse_table_cols ths).back = none →
      (∃ tds ∈ trs, tds ≠ []) →
      ∃ e, convert_file ⟨some ⟨some ths, some trs⟩⟩ = .error e)
    ∧ (∀ d : HtmlDoc, (∃ e, convert_file d = .error e)
      ∨ ∃ rows, convert_file d = .ok (headerRow :: rows)) := by
  constructor
  · intro ths trs hmiss hrow
    obtain ⟨e, he⟩ := processRows_error (parse_table_cols ths) trs hmiss hrow
    simp only [convert_file, he]
    exact ⟨e, rfl⟩
  · intro d
    obtain ⟨tb⟩ := d
    cases tb with
    | none => exact Or.inl ⟨_, rfl⟩
    | some t =>
      obtain ⟨th, tb2⟩ := t
      cases th with
      | none => exact Or.inl ⟨_, rfl⟩
      | some ths =>
        cases tb2 with
        | none => exact Or.inl ⟨_, rfl⟩
        | some trs =>
          cases hp : processRows (parse_table_cols ths) trs with
          | error e =>
            refine Or.inl ⟨e, ?_⟩
            simp only [convert_file, hp]
          | ok rows =>
            refine Or.inr ⟨rows, ?_⟩
            simp only [convert_file, hp]

/-- Witness for C1: a header resolving neither `front` nor `back`, and one
body row with one (empty) cell: the run fails. -/
theorem claim_C1_witness :
    ∃ e, convert_file ⟨some ⟨some [.cons (.text "x") .nil],
      some [[NodeList.nil]]⟩⟩ = .error e := by
  exact claim_C1_amended.1 [.cons (.text "x") .nil] [[NodeList.nil]]
    (Or.inl rfl) (by decide)

/-- C2 counterexample: the claim states that the `id` column is optional and
that only an unresolved `front`/`back` prevents row emission.  First, for a
table resolving `front` and `back` but not `id`, a body row with cells makes
the run fail with the `KeyError` on `col_map["id"]` — no row is emitted.
Second, even with `id`, `front` and `back` all resolved, a cell-bearing row
with fewer cells than a resolved column's index fails the run with an
`IndexError` — so resolvability of `front` and `back` alone does not
guarantee emission either. -/
theorem claim_C2_cex :
    (convert_file ⟨some ⟨some [.cons (.text "front") .nil, .cons (.text "back") .nil],
        some [[.cons (.text "q") .nil, .cons (.text "ans") .nil]]⟩⟩
      = .error "KeyError: id"
    ∧ (parse_table_cols [.cons (.text "front") .nil, .cons (.text "back") .nil]).front
      = some 0
    ∧ (parse_table_cols [.cons (.text "front") .nil, .cons (.text "back") .nil]).back
      = some 1)
    ∧ convert_file ⟨some ⟨some [.cons (.text "Notion-ID") .nil,
        .cons (.text "Front") .nil, .cons (.text "Back") .nil],
        some [[.cons (.text "id1") .nil]]⟩⟩
      = .error "IndexError: front" :=
  ⟨⟨rfl, rfl, rfl⟩, rfl⟩

/-- C2 amended: only the `tags` column is optional.  When the header
resolves `id`, `front` and `back`, with indices in range for every
cell-bearing row, but has no tags column, every body row with cells is
still emitted, with an empty Tags string; an unresolved `id`, like an
unresolved `front` or `back`, prevents row emission: the run fails with the
`KeyError` on `col_map["id"]` at the first cell-bearing row. -/
theorem claim_C2_amended :
    (∀ (ths : List NodeList) (trs : List (List NodeList)) (i f b : Nat),
      (parse_table_cols ths).id = some i →
      (parse_table_cols ths).front = some f →
      (parse_table_cols ths).back = some b →
      (parse_table_cols ths).tags = none →
      (∀ tds ∈ trs, tds ≠ [] →
        i < tds.length ∧ f < tds.length ∧ b < tds.length) →
      ∃ rows, convert_file ⟨some ⟨some ths, some trs⟩⟩ = .ok (headerRow :: rows)
        ∧ rows.length = (trs.filter (fun tds => ¬ tds.isEmpty)).length
        ∧ ∀ r ∈ rows, r.tags = "")
    ∧ (∀ (ths : List NodeList) (trs : List (List NodeList)),
      (parse_table_cols ths).id = none →
      (∃ tds ∈ trs, tds ≠ []) →
      convert_file ⟨some ⟨some ths, some trs⟩⟩ = .error "KeyError: id") := by
  constructor
  · intro ths trs i f b hid hf hb ht hbound
    obtain ⟨rows, hrows, hlen, htags⟩ :=
      processRows_ok_no_tags (parse_table_cols ths) i f b hid hf hb ht trs hbound
    refine ⟨rows, ?_, hlen, htags⟩
    simp only [convert_file, hrows]
  · intro ths trs hid hrow
    simp only [convert_file, processRows_error_id (parse_table_cols ths) trs hid hrow]

/-- Witness for C2: headers `Notion-ID`, `Front`, `Back` and one body row
with three cells, emitted with an empty Tags string; and a header resolving
no `id` column with one cell-bearing row, failing with the `KeyError`. -/
theorem claim_C2_witness :
    (∃ rows, convert_file ⟨some ⟨some [.cons (.text "Notion-ID") .nil,
        .cons (.text "Front") .nil, .cons (.text "Back") .nil],
        some [[.cons (.text "id1") .nil, .cons (.text "q") .nil,
          .cons (.text "ans") .nil]]⟩⟩ = .ok (headerRow :: rows)
      ∧ rows.length = ([[NodeList.cons (Node.text "id1") .nil,
          NodeList.cons (Node.text "q") .nil,
          NodeList.cons (Node.text "ans") .nil]].filter
            (fun tds => ¬ tds.isEmpty)).length
      ∧ ∀ r ∈ rows, r.tags = "")
    ∧ convert_file ⟨some ⟨some [.cons (.text "x") .nil],
        some [[NodeList.cons (Node.text "y") .nil]]⟩⟩ = .error "KeyError: id" := by
  constructor
  · exact claim_C2_amended.1 [.cons (.text "Notion-ID") .nil,
      .cons (.text "Front") .nil, .cons (.text "Back") .nil]
      [[.cons (.text "id1") .nil, .cons (.text "q") .nil, .cons (.text "ans") .nil]]
      0 1 2 rfl rfl rfl rfl (by decide)
  · exact claim_C2_amended.2 [.cons (.text "x") .nil]
      [[NodeList.cons (Node.text "y") .nil]] rfl (by decide)

end NotionAnki
